import Mathlib

/-!
Verification of `collect_changed_issues.py`, a SonarQube issue-triage script:
it fetches issues page by page, keeps those on changed files at or above a
severity threshold, sorts them deterministically, and writes a JSON and a
markdown report, signalling findings through the exit code.

The script is embedded shallowly: Python strings are Lean `String`s (with the
character-level operations spelled out on `List Char`), dictionaries are
association lists, the network and the output files are represented by an
explicit event trace, and the unbounded pagination loop takes explicit fuel.
`os.path.normpath` is embedded following the POSIX implementation
(`posixpath.normpath` of CPython), which is the platform the script targets.
-/

namespace Clai

/-! ### Python string primitives -/

/-- Characters stripped by Python's `str.strip()`: the whitespace table of
CPython (`Py_UNICODE_ISSPACE`): U+0009-U+000D, U+001C-U+001F, the space,
U+0085 (NEL), U+00A0 (NBSP), U+1680 (Ogham space), U+2000-U+200A (en quad
through hair space), U+2028, U+2029 (line/paragraph separator), U+202F
(narrow NBSP), U+205F (medium mathematical space) and U+3000 (ideographic
space). -/
def pyIsSpace (c : Char) : Bool :=
  (0x09 ≤ c.toNat && c.toNat ≤ 0x0d) ||
  (0x1c ≤ c.toNat && c.toNat ≤ 0x1f) ||
  c.toNat = 0x20 || c.toNat = 0x85 || c.toNat = 0xa0 || c.toNat = 0x1680 ||
  (0x2000 ≤ c.toNat && c.toNat ≤ 0x200a) ||
  c.toNat = 0x2028 || c.toNat = 0x2029 ||
  c.toNat = 0x202f || c.toNat = 0x205f || c.toNat = 0x3000

/-- `str.strip()` on a character list. -/
def stripChars (cs : List Char) : List Char :=
  ((cs.dropWhile pyIsSpace).reverse.dropWhile pyIsSpace).reverse

/-- `str.strip()` on a string. -/
def pyStrip (s : String) : String :=
  ⟨stripChars s.data⟩

/-- `str.lower()` followed by `str.strip()`, as applied to the threshold token. -/
def pyLowerStrip (s : String) : String :=
  ⟨stripChars (s.data.map Char.toLower)⟩

/-! ### `posixpath.normpath`, character by character -/

/-- Auxiliary for `str.split('/')`: first component and remaining components. -/
def splitSlashAux : List Char → List Char × List (List Char)
  | [] => ([], [])
  | c :: rest =>
    let r := splitSlashAux rest
    if c = '/' then ([], r.1 :: r.2) else (c :: r.1, r.2)

/-- `str.split('/')`. -/
def splitSlash (p : List Char) : List (List Char) :=
  (splitSlashAux p).1 :: (splitSlashAux p).2

/-- `'/'.join(comps)`. -/
def joinSlash : List (List Char) → List Char
  | [] => []
  | [c] => c
  | c :: cs => c ++ '/' :: joinSlash cs

/-- The number of leading slashes `posixpath.normpath` preserves (0, 1 or 2). -/
def initialSlashes (p : List Char) : Nat :=
  if p.take 1 = ['/'] then
    if p.take 2 = ['/', '/'] && !(p.take 3 = ['/', '/', '/']) then 2 else 1
  else 0

/-- The `..` path component. -/
def dotdot : List Char := ['.', '.']

/-- One iteration of the component loop of `posixpath.normpath`. -/
def normStep (slashes : Nat) (acc : List (List Char)) (comp : List Char) :
    List (List Char) :=
  if comp = [] ∨ comp = ['.'] then acc
  else if comp ≠ dotdot ∨ (slashes = 0 ∧ acc = []) ∨
      (acc ≠ [] ∧ acc.getLast? = some dotdot) then acc ++ [comp]
  else if acc ≠ [] then acc.dropLast
  else acc

/-- `posixpath.normpath` on a character list. -/
def normpathChars (p : List Char) : List Char :=
  if p = [] then ['.']
  else
    let slashes := initialSlashes p
    let newComps := (splitSlash p).foldl (normStep slashes) []
    let out := List.replicate slashes '/' ++ joinSlash newComps
    if out = [] then ['.'] else out

/-- `normalize_path`: strip whitespace, drop a leading `./`, `os.path.normpath`,
then replace every backslash by a slash. -/
def normalize_path (s : String) : String :=
  let p := stripChars s.data
  let p := if p.take 2 = ['.', '/'] then p.drop 2 else p
  ⟨(normpathChars p).map (fun c => if c = '\\' then '/' else c)⟩

example : normalize_path "./a/b" = "a/b" := by decide
example : normalize_path "a/b" = "a/b" := by decide
example : normalize_path "" = "." := by decide
example : normalize_path "a/../b" = "b" := by decide
example : normalize_path "  src/x.py " = "src/x.py" := by decide
example : normalize_path ".\\a" = "./a" := by decide
example : normalize_path "./a" = "a" := by decide
example : normalize_path "a /" = "a " := by decide
example : normalize_path "//x/y/" = "//x/y" := by decide
example : normalize_path "///x" = "/x" := by decide
example : normalize_path "../../x" = "../../x" := by decide
example : normalize_path "/../x" = "/x" := by decide
example : normalize_path "a\x1C/" = "a\x1C" := by decide
example : normalize_path "a\x1C" = "a" := by decide
example : normalize_path "\u00A0a\u00A0" = "a" := by decide

/-! ### Python string comparison -/

/-- Python `<` on strings: strict lexicographic order on code points. -/
def listLT : List Char → List Char → Bool
  | [], [] => false
  | [], _ :: _ => true
  | _ :: _, [] => false
  | a :: as, b :: bs => if a < b then true else if b < a then false else listLT as bs

/-- Python `<` on `String`. -/
def strLT (a b : String) : Bool := listLT a.data b.data

/-! ### A stable sort, embedding Python's stable `list.sort(key=...)` -/

/-- Insert `x` before the first element `y` with `le x y`; elements equal
under `le` stay behind `x`, matching the stability of Python's sort. -/
def orderedInsert {α : Type} (le : α → α → Bool) (x : α) : List α → List α
  | [] => [x]
  | y :: ys => if le x y then x :: y :: ys else y :: orderedInsert le x ys

/-- Stable insertion sort; extensionally equal to Python's stable sort for a
total preorder `le`. -/
def insertionSort {α : Type} (le : α → α → Bool) : List α → List α
  | [] => []
  | x :: xs => orderedInsert le x (insertionSort le xs)

/-! ### Data model: severities, thresholds, raw issues, findings -/

/-- `SEVERITY_ORDER`: the fixed rank of each canonical severity. -/
def SEVERITY_ORDER : List (String × Nat) :=
  [("INFO", 1), ("MINOR", 2), ("MAJOR", 3), ("CRITICAL", 4), ("BLOCKER", 5)]

/-- `THRESHOLD_TO_SEVERITY`: user-facing threshold tokens to canonical severity. -/
def THRESHOLD_TO_SEVERITY : List (String × String) :=
  [("info", "INFO"), ("low", "MINOR"), ("medium", "MAJOR"), ("high", "CRITICAL"),
   ("blocker", "BLOCKER"), ("minor", "MINOR"), ("major", "MAJOR"),
   ("critical", "CRITICAL"), ("all", "INFO")]

/-- `SEVERITY_ORDER.get(severity, 0)`. -/
def severityRank (s : String) : Nat :=
  (SEVERITY_ORDER.lookup s).getD 0

/-- The `textRange` sub-object of a raw issue; only `startLine` is consulted. -/
structure TextRange where
  startLine : Option Int
deriving DecidableEq

/-- A raw issue record from the upstream service. Fields the script reads with
`issue.get(...)` are `Option`s; `none` is a missing key. -/
structure RawIssue where
  key : Option String := none
  rule : Option String := none
  type : Option String := none
  severity : Option String := none
  message : Option String := none
  component : Option String := none
  line : Option Int := none
  textRange : Option TextRange := none
  status : Option String := none
  effort : Option String := none
  tags : Option (List String) := none
deriving DecidableEq

/-- `issue_file_path`: the component identifier after the first `:` (if any),
normalized. -/
def issue_file_path (i : RawIssue) : String :=
  let comp := (i.component.getD "").data
  let comp := if comp.contains ':' then (comp.dropWhile (· ≠ ':')).drop 1 else comp
  normalize_path ⟨comp⟩

/-- A positive line number, if the optional field holds one. -/
def posLine (o : Option Int) : Option Nat :=
  match o with
  | some l => if 0 < l then some l.toNat else none
  | none => none

/-- `issue_line`: an explicit positive `line`, else a positive
`textRange.startLine`, else 0 ("file-level, unresolved"). -/
def issue_line (i : RawIssue) : Nat :=
  match posLine i.line with
  | some l => l
  | none =>
    match posLine ((i.textRange.getD ⟨none⟩).startLine) with
    | some l => l
    | none => 0

/-- A filtered, normalized finding, mirroring the dict built by `filter_issues`. -/
structure Finding where
  key : String
  rule : String
  type : String
  severity : String
  message : String
  file : String
  line : Nat
  status : String
  effort : String
  tags : List String
deriving DecidableEq

/-- The finding dict built for one kept raw issue. -/
def mkFinding (i : RawIssue) : Finding where
  key := i.key.getD ""
  rule := i.rule.getD ""
  type := i.type.getD ""
  severity := i.severity.getD "INFO"
  message := i.message.getD ""
  file := issue_file_path i
  line := issue_line i
  status := i.status.getD ""
  effort := i.effort.getD ""
  tags := i.tags.getD []

/-- The keep-predicate of `filter_issues`: severity rank (missing severity is
`INFO`) at or above the threshold rank, and normalized file among the changed
files. -/
def keepIssue (changed : List String) (thresholdRank : Nat) (i : RawIssue) : Bool :=
  decide (thresholdRank ≤ severityRank (i.severity.getD "INFO")) &&
    decide (issue_file_path i ∈ changed)

/-- The sort key comparison of `filter_issues`: Python tuple `≤` on
`(-rank, file, line, key)`. -/
def findingLE (a b : Finding) : Bool :=
  if severityRank b.severity < severityRank a.severity then true
  else if severityRank a.severity < severityRank b.severity then false
  else if strLT a.file b.file then true
  else if strLT b.file a.file then false
  else if a.line < b.line then true
  else if b.line < a.line then false
  else !(strLT b.key a.key)

/-- `filter_issues`: keep qualifying issues, build findings, sort them.
`none` models the `KeyError` a threshold token absent from
`THRESHOLD_TO_SEVERITY` would raise. -/
def filter_issues (rawIssues : List RawIssue) (changedFiles : List String)
    (threshold : String) : Option (List Finding) :=
  match THRESHOLD_TO_SEVERITY.lookup threshold with
  | none => none
  | some thresholdSev =>
    match SEVERITY_ORDER.lookup thresholdSev with
    | none => none
    | some thresholdRank =>
      some (insertionSort findingLE
        ((rawIssues.filter (keepIssue changedFiles thresholdRank)).map mkFinding))

/-! ### Changed-file loading -/

/-- `set.add`: Python set insertion, modelled on a duplicate-free list. -/
def setAdd (s : List String) (x : String) : List String :=
  if x ∈ s then s else s ++ [x]

/-- One line of the changed-file list: strip it, skip it when blank,
otherwise add its normalized path to the set. -/
def loadStep (s : List String) (line : String) : List String :=
  let l := pyStrip line
  if l = "" then s else setAdd s (normalize_path l)

/-- `load_changed_files` over the list of lines of the changed-file list. -/
def load_changed_files (lines : List String) : List String :=
  lines.foldl loadStep []

example :
    load_changed_files ["src/a.py", "", " ./src/a.py ", "src/b.py"] =
      ["src/a.py", "src/b.py"] := by decide
example :
    filter_issues
      [{ key := some "K2", severity := some "MAJOR", component := some "p:src/a.py",
         line := some 10 },
       { key := some "K1", severity := some "MINOR", component := some "p:src/a.py",
         line := some 5 },
       { key := some "K3", severity := some "CRITICAL", component := some "p:src/c.py",
         line := some 1 }]
      ["src/a.py", "src/b.py"] "medium" =
      some [mkFinding { key := some "K2", severity := some "MAJOR",
                        component := some "p:src/a.py", line := some 10 }] := by decide

/-! ### Report emission -/

/-- Message escaping in the markdown table: `|` becomes `\|`, then newlines
become spaces. -/
def escapeMessage (m : String) : String :=
  ⟨(m.data.flatMap (fun c => if c = '|' then ['\\', '|'] else [c])).map
    (fun c => if c = '\n' then ' ' else c)⟩

/-- One markdown table row; a line number of 0 renders as the empty cell
(Python's `item['line'] or ''`). -/
def markdownRow (f : Finding) : String :=
  "| " ++ f.severity ++ " | `" ++ f.file ++ "` | " ++
    (if f.line = 0 then "" else toString f.line) ++ " | `" ++ f.rule ++ "` | " ++
    escapeMessage f.message ++ " |\n"

/-- A markdown table row with the Line cell given explicitly; used to state
what `markdownRow` puts in that cell. -/
def markdownRowCell (f : Finding) (cell : String) : String :=
  "| " ++ f.severity ++ " | `" ++ f.file ++ "` | " ++
    cell ++ " | `" ++ f.rule ++ "` | " ++
    escapeMessage f.message ++ " |\n"

/-- The full text produced by `write_markdown`. -/
def write_markdown_text (projectKey threshold : String) (changedCount : Nat)
    (findings : List Finding) : String :=
  let header := "# SonarQube Findings (Changed Files)\n\n" ++
    "- Project: `" ++ projectKey ++ "`\n" ++
    "- Severity threshold: `" ++ threshold ++ "`\n" ++
    "- Changed files scanned: `" ++ toString changedCount ++ "`\n" ++
    "- Findings: `" ++ toString findings.length ++ "`\n\n"
  if findings.isEmpty then
    header ++ "No findings at or above the selected threshold on changed files.\n"
  else
    header ++ "| Severity | File | Line | Rule | Message |\n" ++
      "|---|---|---:|---|---|\n" ++ String.join (findings.map markdownRow)

/-- String `≤` used to sort the severity-count keys (`dict(sorted(...))`). -/
def strLE (a b : String) : Bool := !(strLT b a)

/-- The `summary` object of the structured report. -/
structure Summary where
  project_key : String
  severity_threshold : String
  changed_files : Nat
  findings : Nat
  severity_counts : List (String × Nat)
deriving DecidableEq

/-- The structured (JSON) report: summary plus the ordered findings. -/
structure OutputDoc where
  summary : Summary
  findings : List Finding
deriving DecidableEq

/-- `Counter(...)` then `dict(sorted(...))`: each distinct severity with its
count, keys in ascending string order. -/
def severityCounts (findings : List Finding) : List (String × Nat) :=
  let sevs := findings.map (fun f => f.severity)
  (insertionSort strLE sevs.dedup).map (fun s => (s, sevs.count s))

/-- The structured output object built by `main`. -/
def buildOutput (projectKey threshold : String) (changedCount : Nat)
    (findings : List Finding) : OutputDoc where
  summary :=
    { project_key := projectKey
      severity_threshold := threshold
      changed_files := changedCount
      findings := findings.length
      severity_counts := severityCounts findings }
  findings := findings

/-! ### Paginated fetch and the driver, as an event trace -/

/-- The `paging` metadata of one response; missing keys default in the loop. -/
structure Paging where
  total : Option Int := none
  pageSize : Option Int := none
deriving DecidableEq

/-- The outcome of requesting one page: a payload, an HTTP error response, or
a transport failure. -/
inductive PageResult where
  | success (issues : List RawIssue) (paging : Paging)
  | httpError (code : Int) (body : String)
  | urlError (msg : String)
deriving DecidableEq

/-- Observable effects of a run: one network request per page, and the two
output-file writes carrying their contents. -/
inductive Event where
  | request (page : Nat)
  | writeJson (doc : OutputDoc)
  | writeMd (text : String)
deriving DecidableEq

/-- `fetch_issues`: request pages from 1, accumulate the issues, and stop as
soon as `page * pageSize >= total`, both read from the current response
(defaults: `total` = number of issues accumulated so far, `pageSize` = 500).
The loop is given fuel; `none` means it was still running. -/
def fetchTrace (up : Nat → PageResult) :
    Nat → Nat → List RawIssue → List Event →
    Option (Except String (List RawIssue) × List Event)
  | 0, _, _, _ => none
  | fuel + 1, page, acc, tr =>
    let tr := tr ++ [Event.request page]
    match up page with
    | .httpError code body =>
      some (.error ("SonarQube API error " ++ toString code ++ ": " ++ body), tr)
    | .urlError msg => some (.error msg, tr)
    | .success pageIssues paging =>
      let acc := acc ++ pageIssues
      let total := paging.total.getD acc.length
      let pageSize := paging.pageSize.getD 500
      if total ≤ (page : Int) * pageSize then some (.ok acc, tr)
      else fetchTrace up fuel (page + 1) acc tr

/-- `main` followed by the `__main__` exception handler, with the upstream
service, the changed-file read, and the output writes made explicit.
The result is the value `main` returns or the `RuntimeError` it raises,
together with the trace of requests and writes. -/
def mainTrace (up : Nat → PageResult) (fuel : Nat) (projectKey tok : String)
    (loadRes : Except String (List String)) :
    Option (Except String Nat × List Event) :=
  let threshold := pyLowerStrip tok
  if (THRESHOLD_TO_SEVERITY.lookup threshold).isNone then
    some (.error ("invalid severity threshold '" ++ tok ++ "'"), [])
  else
    match loadRes with
    | .error e => some (.error e, [])
    | .ok lines =>
      let changed := load_changed_files lines
      match fetchTrace up fuel 1 [] [] with
      | none => none
      | some (.error e, tr) => some (.error e, tr)
      | some (.ok raws, tr) =>
        let findings := (filter_issues raws changed threshold).getD []
        let doc := buildOutput projectKey threshold changed.length findings
        let md := write_markdown_text projectKey threshold changed.length findings
        some (.ok (if findings.isEmpty then 0 else 3),
          tr ++ [Event.writeJson doc, Event.writeMd md])

/-- The process exit status: `main`'s return value, or 1 when it raised. -/
def processExit : Except String Nat → Nat
  | .ok n => n
  | .error _ => 1

example :
    mainTrace (fun _ => .success [] ⟨some 0, some 500⟩) 1 "pk" "High "
      (.ok ["a", "./a", "b"]) =
    some (.ok 0,
      [Event.request 1,
       Event.writeJson (buildOutput "pk" "high" 2 []),
       Event.writeMd (write_markdown_text "pk" "high" 2 [])]) := by rfl
example :
    mainTrace (fun _ => .success [] ⟨some 0, some 500⟩) 1 "pk" "urgent"
      (.ok ["a"]) =
    some (.error "invalid severity threshold 'urgent'", []) := by rfl

/-! ### Association-list lookup -/

theorem lookup_mem {β : Type} {l : List (String × β)} {k : String} {v : β}
    (h : l.lookup k = some v) : (k, v) ∈ l := by
  induction l with
  | nil => simp [List.lookup] at h
  | cons p ps ih =>
    rw [List.lookup] at h
    split at h
    · next heq =>
      obtain ⟨p1, p2⟩ := p
      simp only [beq_iff_eq] at heq
      cases h
      simp [heq]
    · exact List.mem_cons_of_mem _ (ih h)

/-! ### Order lemmas for the Python string comparison -/

theorem listLT_irrefl (l : List Char) : listLT l l = false := by
  induction l with
  | nil => rfl
  | cons c cs ih => simp [listLT, ih]

theorem listLT_trans {a b c : List Char} (h1 : listLT a b = true)
    (h2 : listLT b c = true) : listLT a c = true := by
  induction a generalizing b c with
  | nil =>
    cases c with
    | nil =>
      cases b with
      | nil => exact h1
      | cons y ys => simp [listLT] at h2
    | cons z zs => rfl
  | cons x xs ih =>
    cases b with
    | nil => simp [listLT] at h1
    | cons y ys =>
      cases c with
      | nil => simp [listLT] at h2
      | cons z zs =>
        rw [listLT] at h1 h2 ⊢
        rcases lt_trichotomy x y with hxy | hxy | hxy
        · rcases lt_trichotomy y z with hyz | hyz | hyz
          · rw [if_pos (lt_trans hxy hyz)]
          · subst hyz
            rw [if_pos hxy]
          · rw [if_neg (lt_asymm hyz), if_pos hyz] at h2
            exact absurd h2 Bool.false_ne_true
        · subst hxy
          rcases lt_trichotomy x z with hxz | hxz | hxz
          · rw [if_pos hxz]
          · subst hxz
            rw [if_neg (lt_irrefl x), if_neg (lt_irrefl x)] at h1 h2 ⊢
            exact ih h1 h2
          · rw [if_neg (lt_asymm hxz), if_pos hxz] at h2
            exact absurd h2 Bool.false_ne_true
        · rw [if_neg (lt_asymm hxy), if_pos hxy] at h1
          exact absurd h1 Bool.false_ne_true

theorem listLT_antisymm {a b : List Char} (h1 : listLT a b = false)
    (h2 : listLT b a = false) : a = b := by
  induction a generalizing b with
  | nil =>
    cases b with
    | nil => rfl
    | cons y ys => simp [listLT] at h1
  | cons x xs ih =>
    cases b with
    | nil => simp [listLT] at h2
    | cons y ys =>
      rw [listLT] at h1 h2
      rcases lt_trichotomy x y with hxy | hxy | hxy
      · rw [if_pos hxy] at h1
        exact absurd h1 (by decide)
      · subst hxy
        rw [if_neg (lt_irrefl x), if_neg (lt_irrefl x)] at h1 h2
        rw [ih h1 h2]
      · rw [if_pos hxy] at h2
        exact absurd h2 (by decide)

theorem listLT_asymm {a b : List Char} (h : listLT a b = true) :
    listLT b a = false := by
  by_contra hc
  have hba : listLT b a = true := by
    cases hb : listLT b a
    · exact absurd hb hc
    · rfl
  have := listLT_trans h hba
  rw [listLT_irrefl] at this
  exact Bool.false_ne_true this

theorem strLT_irrefl (s : String) : strLT s s = false := listLT_irrefl s.data

theorem strLT_trans {a b c : String} (h1 : strLT a b = true)
    (h2 : strLT b c = true) : strLT a c = true := listLT_trans h1 h2

theorem strLT_antisymm {a b : String} (h1 : strLT a b = false)
    (h2 : strLT b a = false) : a = b := by
  cases a
  cases b
  exact congrArg String.mk (listLT_antisymm h1 h2)

theorem strLT_asymm {a b : String} (h : strLT a b = true) :
    strLT b a = false := listLT_asymm h

theorem strLT_false_cases {a b : String} (h : strLT a b = false) :
    a = b ∨ strLT b a = true := by
  rcases Bool.eq_false_or_eq_true (strLT b a) with hb | hb
  · exact Or.inr hb
  · exact Or.inl (strLT_antisymm h hb)

/-! ### Order lemmas for the finding sort key -/

/-- The ordering `filter_issues` sorts by, as a proposition: Python tuple `≤`
on `(-rank, file, line, key)`. -/
def FindingRel (a b : Finding) : Prop :=
  severityRank b.severity < severityRank a.severity ∨
    (severityRank a.severity = severityRank b.severity ∧
      (strLT a.file b.file = true ∨
        (a.file = b.file ∧
          (a.line < b.line ∨
            (a.line = b.line ∧ strLT b.key a.key = false)))))

theorem findingLE_iff (a b : Finding) :
    findingLE a b = true ↔ FindingRel a b := by
  rw [findingLE, FindingRel]
  rcases Nat.lt_trichotomy (severityRank a.severity) (severityRank b.severity)
    with hr | hr | hr
  · rw [if_neg (Nat.lt_asymm hr), if_pos hr]
    refine iff_of_false Bool.false_ne_true ?_
    rintro (h | ⟨he, _⟩)
    · omega
    · omega
  · rw [if_neg (by omega : ¬ severityRank b.severity < severityRank a.severity),
      if_neg (by omega : ¬ severityRank a.severity < severityRank b.severity)]
    have hrank : ¬ severityRank b.severity < severityRank a.severity := by omega
    rcases Bool.eq_false_or_eq_true (strLT a.file b.file) with hf | hf
    · rw [if_pos hf]
      exact iff_of_true rfl (Or.inr ⟨hr, Or.inl hf⟩)
    · rw [if_neg (by rw [hf]; exact Bool.false_ne_true)]
      rcases Bool.eq_false_or_eq_true (strLT b.file a.file) with hf' | hf'
      · rw [if_pos hf']
        refine iff_of_false Bool.false_ne_true ?_
        rintro (h | ⟨_, h | ⟨h, _⟩⟩)
        · exact absurd h hrank
        · rw [hf] at h
          exact Bool.false_ne_true h
        · rw [h, strLT_irrefl] at hf'
          exact Bool.false_ne_true hf' 
      · have hfe : a.file = b.file := strLT_antisymm hf hf'
        rw [if_neg (by rw [hf']; exact Bool.false_ne_true)]
        rcases Nat.lt_trichotomy a.line b.line with hl | hl | hl
        · rw [if_pos hl]
          exact iff_of_true rfl (Or.inr ⟨hr, Or.inr ⟨hfe, Or.inl hl⟩⟩)
        · rw [if_neg (by omega : ¬ a.line < b.line),
            if_neg (by omega : ¬ b.line < a.line)]
          rw [Bool.not_eq_true']
          constructor
          · intro hk
            exact Or.inr ⟨hr, Or.inr ⟨hfe, Or.inr ⟨hl, hk⟩⟩⟩
          · rintro (h | ⟨_, h | ⟨_, h | ⟨_, h⟩⟩⟩)
            · exact absurd h hrank
            · rw [hf] at h
              exact absurd h Bool.false_ne_true
            · omega
            · exact h
        · rw [if_neg (by omega : ¬ a.line < b.line), if_pos hl]
          refine iff_of_false Bool.false_ne_true ?_
          rintro (h | ⟨_, h | ⟨_, h | ⟨h, _⟩⟩⟩)
          · exact absurd h hrank
          · rw [hf] at h
            exact absurd h Bool.false_ne_true
          · omega
          · omega
  · rw [if_pos hr]
    exact iff_of_true rfl (Or.inl hr)

theorem findingLE_total (a b : Finding) :
    findingLE a b = true ∨ findingLE b a = true := by
  rw [findingLE_iff, findingLE_iff, FindingRel, FindingRel]
  rcases Nat.lt_trichotomy (severityRank a.severity) (severityRank b.severity)
    with hr | hr | hr
  · exact Or.inr (Or.inl hr)
  · rcases Bool.eq_false_or_eq_true (strLT a.file b.file) with hfab | hfab
    · exact Or.inl (Or.inr ⟨hr, Or.inl hfab⟩)
    · rcases Bool.eq_false_or_eq_true (strLT b.file a.file) with hfba | hfba
      · exact Or.inr (Or.inr ⟨hr.symm, Or.inl hfba⟩)
      · have hf : a.file = b.file := strLT_antisymm hfab hfba
        rcases Nat.lt_trichotomy a.line b.line with hl | hl | hl
        · exact Or.inl (Or.inr ⟨hr, Or.inr ⟨hf, Or.inl hl⟩⟩)
        · rcases Bool.eq_false_or_eq_true (strLT b.key a.key) with hk | hk
          · have hk' : strLT a.key b.key = false := strLT_asymm hk
            exact Or.inr (Or.inr ⟨hr.symm, Or.inr ⟨hf.symm, Or.inr ⟨hl.symm, hk'⟩⟩⟩)
          · exact Or.inl (Or.inr ⟨hr, Or.inr ⟨hf, Or.inr ⟨hl, hk⟩⟩⟩)
        · exact Or.inr (Or.inr ⟨hr.symm, Or.inr ⟨hf.symm, Or.inl hl⟩⟩)
  · exact Or.inl (Or.inl hr)

theorem findingLE_trans {a b c : Finding} (h1 : findingLE a b = true)
    (h2 : findingLE b c = true) : findingLE a c = true := by
  rw [findingLE_iff] at h1 h2 ⊢
  rw [FindingRel] at h1 h2 ⊢
  rcases h1 with h1 | ⟨hr1, h1⟩
  · rcases h2 with h2 | ⟨hr2, _⟩
    · exact Or.inl (lt_trans h2 h1)
    · exact Or.inl (hr2 ▸ h1)
  · rcases h2 with h2 | ⟨hr2, h2⟩
    · exact Or.inl (hr1 ▸ h2)
    · refine Or.inr ⟨hr1.trans hr2, ?_⟩
      rcases h1 with h1 | ⟨hf1, h1⟩
      · rcases h2 with h2 | ⟨hf2, _⟩
        · exact Or.inl (strLT_trans h1 h2)
        · exact Or.inl (hf2 ▸ h1)
      · rcases h2 with h2 | ⟨hf2, h2⟩
        · exact Or.inl (hf1 ▸ h2)
        · refine Or.inr ⟨hf1.trans hf2, ?_⟩
          rcases h1 with h1 | ⟨hl1, h1⟩
          · rcases h2 with h2 | ⟨hl2, _⟩
            · exact Or.inl (lt_trans h1 h2)
            · exact Or.inl (hl2 ▸ h1)
          · rcases h2 with h2 | ⟨hl2, h2⟩
            · exact Or.inl (hl1 ▸ h2)
            · refine Or.inr ⟨hl1.trans hl2, ?_⟩
              rcases strLT_false_cases h1 with hk1 | hk1
              · rw [hk1] at h2
                exact h2
              · rcases strLT_false_cases h2 with hk2 | hk2
                · rw [hk2]
                  exact h1
                · exact strLT_asymm (strLT_trans hk1 hk2)

/-! ### Lemmas about the stable insertion sort -/

theorem mem_orderedInsert {α : Type} (le : α → α → Bool) (x a : α)
    (l : List α) : a ∈ orderedInsert le x l ↔ a = x ∨ a ∈ l := by
  induction l with
  | nil => simp [orderedInsert]
  | cons y ys ih =>
    rw [orderedInsert]
    split
    · simp
    · simp [ih]
      tauto

theorem mem_insertionSort {α : Type} (le : α → α → Bool) (a : α)
    (l : List α) : a ∈ insertionSort le l ↔ a ∈ l := by
  induction l with
  | nil => simp [insertionSort]
  | cons x xs ih =>
    rw [insertionSort, mem_orderedInsert]
    simp [ih]

theorem pairwise_orderedInsert {α : Type} (le : α → α → Bool)
    (hTotal : ∀ a b, le a b = true ∨ le b a = true)
    (hTrans : ∀ a b c, le a b = true → le b c = true → le a c = true)
    (x : α) (l : List α)
    (h : l.Pairwise (fun a b => le a b = true)) :
    (orderedInsert le x l).Pairwise (fun a b => le a b = true) := by
  induction l with
  | nil => simp [orderedInsert]
  | cons y ys ih =>
    rw [orderedInsert]
    rcases List.pairwise_cons.mp h with ⟨hy, hys⟩
    split
    · next hxy =>
      refine List.pairwise_cons.mpr ⟨?_, h⟩
      intro z hz
      rcases List.mem_cons.mp hz with hz | hz
      · exact hz ▸ hxy
      · exact hTrans x y z hxy (hy z hz)
    · next hxy =>
      have hyx : le y x = true := by
        rcases hTotal x y with ht | ht
        · exact absurd ht hxy
        · exact ht
      refine List.pairwise_cons.mpr ⟨?_, ih hys⟩
      intro z hz
      rcases (mem_orderedInsert le x z ys).mp hz with hz | hz
      · exact hz ▸ hyx
      · exact hy z hz

theorem pairwise_insertionSort {α : Type} (le : α → α → Bool)
    (hTotal : ∀ a b, le a b = true ∨ le b a = true)
    (hTrans : ∀ a b c, le a b = true → le b c = true → le a c = true)
    (l : List α) :
    (insertionSort le l).Pairwise (fun a b => le a b = true) := by
  induction l with
  | nil => simp [insertionSort]
  | cons x xs ih => exact pairwise_orderedInsert le hTotal hTrans x _ ih

/-! ### Characterizing `filter_issues` -/

theorem filter_issues_eq {raws : List RawIssue} {changed : List String}
    {thr : String} {fs : List Finding}
    (h : filter_issues raws changed thr = some fs) :
    ∃ sev rk, THRESHOLD_TO_SEVERITY.lookup thr = some sev ∧
      SEVERITY_ORDER.lookup sev = some rk ∧
      fs = insertionSort findingLE
        ((raws.filter (keepIssue changed rk)).map mkFinding) := by
  rw [filter_issues] at h
  split at h
  · simp at h
  · next sev h1 =>
    split at h
    · simp at h
    · next rk h2 =>
      simp only [Option.some.injEq] at h
      exact ⟨sev, rk, h1, h2, h.symm⟩

theorem threshold_sev_rank {thr sev : String}
    (h : THRESHOLD_TO_SEVERITY.lookup thr = some sev) :
    SEVERITY_ORDER.lookup sev = some (severityRank sev) ∧ 1 ≤ severityRank sev := by
  have hm := lookup_mem h
  rw [THRESHOLD_TO_SEVERITY] at hm
  simp only [List.mem_cons, List.not_mem_nil, or_false, Prod.mk.injEq] at hm
  rcases hm with ⟨_, rfl⟩ | ⟨_, rfl⟩ | ⟨_, rfl⟩ | ⟨_, rfl⟩ | ⟨_, rfl⟩ |
    ⟨_, rfl⟩ | ⟨_, rfl⟩ | ⟨_, rfl⟩ | ⟨_, rfl⟩ <;> exact ⟨rfl, by decide⟩

theorem keepIssue_spec {changed : List String} {rk : Nat} {i : RawIssue}
    (h : keepIssue changed rk i = true) :
    rk ≤ severityRank (i.severity.getD "INFO") ∧ issue_file_path i ∈ changed := by
  rw [keepIssue, Bool.and_eq_true, decide_eq_true_eq, decide_eq_true_eq] at h
  exact h

theorem filter_mem {raws : List RawIssue} {changed : List String}
    {thr : String} {fs : List Finding}
    (h : filter_issues raws changed thr = some fs) :
    ∃ sev, THRESHOLD_TO_SEVERITY.lookup thr = some sev ∧
      ∀ f ∈ fs,
        severityRank sev ≤ severityRank f.severity ∧
        f.file ∈ changed ∧
        ∃ i ∈ raws, keepIssue changed (severityRank sev) i = true ∧
          f = mkFinding i := by
  obtain ⟨sev, rk, h1, h2, hfs⟩ := filter_issues_eq h
  have hrk : rk = severityRank sev := by
    rw [severityRank, h2]
    rfl
  subst hrk
  refine ⟨sev, h1, ?_⟩
  intro f hf
  rw [hfs, mem_insertionSort] at hf
  obtain ⟨i, hi, rfl⟩ := List.mem_map.mp hf
  obtain ⟨hiraw, hkeep⟩ := List.mem_filter.mp hi
  obtain ⟨hrank, hfile⟩ := keepIssue_spec hkeep
  exact ⟨hrank, hfile, i, hiraw, hkeep, rfl⟩

/-! ### C1: the filter keeps exactly the qualifying issues -/

/-- Soundness of `filter_issues`: each output finding is at or above the
threshold rank, lies on a changed file, and originates from a raw issue that
passes the keep-predicate. -/
def FilterSound (raws : List RawIssue) (changed : List String) (thr : String)
    (fs : List Finding) : Prop :=
  ∃ sev, THRESHOLD_TO_SEVERITY.lookup thr = some sev ∧
    ∀ f ∈ fs,
      severityRank sev ≤ severityRank f.severity ∧
      f.file ∈ changed ∧
      ∃ i ∈ raws, keepIssue changed (severityRank sev) i = true ∧ f = mkFinding i

/-- C1: for every list of raw issues, changed-file set and valid threshold
token, every finding returned by `filter_issues` satisfies
`rank(severity) >= thresholdRank` (a missing severity is `INFO` before the
comparison, and the finding records that defaulted severity) and
`file ∈ changedFiles`, and every finding comes from a raw issue passing both
predicates, so no raw issue failing either contributes to the output. -/
theorem c1_filter_sound (raws : List RawIssue) (changed : List String)
    (thr : String) (fs : List Finding)
    (h : filter_issues raws changed thr = some fs) :
    FilterSound raws changed thr fs :=
  filter_mem h

/-- Witness for C1 at the end-to-end scenario of the specification. -/
theorem c1_filter_sound_witness :
    FilterSound
      [{ key := some "K2", severity := some "MAJOR",
         component := some "p:src/a.py", line := some 10 },
       { key := some "K1", severity := some "MINOR",
         component := some "p:src/a.py", line := some 5 },
       { key := some "K3", severity := some "CRITICAL",
         component := some "p:src/c.py", line := some 1 }]
      ["src/a.py", "src/b.py"] "medium"
      [mkFinding { key := some "K2", severity := some "MAJOR",
                   component := some "p:src/a.py", line := some 10 }] :=
  c1_filter_sound _ _ _ _ (by decide)

/-! ### C2: the output ordering is total and deterministic -/

/-- The ordering contract of `filter_issues`: the output is sorted by
`(severity rank descending, file ascending, line ascending, key ascending)`,
ties on (severity, file, line) are broken by the lexicographically smaller
key first, and the result is determined by the input. -/
def FilterOrdered (raws : List RawIssue) (changed : List String) (thr : String)
    (fs : List Finding) : Prop :=
  List.Pairwise (fun a b => findingLE a b = true) fs ∧
  List.Pairwise (fun a b => a.severity = b.severity → a.file = b.file →
    a.line = b.line → a.key ≠ b.key → strLT a.key b.key = true) fs ∧
  ∀ fs', filter_issues raws changed thr = some fs' → fs' = fs

/-- C2: the findings returned by `filter_issues` are sorted by
(severity rank descending, file ascending, line ascending, key ascending);
two findings agreeing on severity, file and line but with different keys are
emitted with the smaller key first; and the filter is deterministic, so
running it twice on identical input yields identical output. -/
theorem c2_filter_ordered (raws : List RawIssue) (changed : List String)
    (thr : String) (fs : List Finding)
    (h : filter_issues raws changed thr = some fs) :
    FilterOrdered raws changed thr fs := by
  obtain ⟨sev, rk, _, _, hfs⟩ := filter_issues_eq h
  have hpair : List.Pairwise (fun a b => findingLE a b = true) fs := by
    rw [hfs]
    exact pairwise_insertionSort findingLE findingLE_total
      (fun a b c => findingLE_trans) _
  refine ⟨hpair, ?_, ?_⟩
  · refine hpair.imp ?_
    intro a b hab hsev hfile hline hkey
    rw [findingLE_iff, FindingRel] at hab
    have hr : severityRank a.severity = severityRank b.severity := by rw [hsev]
    rcases hab with hab | ⟨_, hab | ⟨_, hab | ⟨_, hab⟩⟩⟩
    · omega
    · rw [hfile, strLT_irrefl] at hab
      exact absurd hab Bool.false_ne_true
    · omega
    · rcases strLT_false_cases hab with he | he
      · exact absurd he.symm hkey
      · exact he
  · intro fs' h'
    rw [h] at h'
    exact (Option.some.inj h').symm

/-- Witness for C2: two findings tied on severity, file and line are ordered
by key. -/
theorem c2_filter_ordered_witness :
    FilterOrdered
      [{ key := some "K9", severity := some "MAJOR",
         component := some "p:src/a.py", line := some 10 },
       { key := some "K1", severity := some "MAJOR",
         component := some "p:src/a.py", line := some 10 }]
      ["src/a.py"] "medium"
      [mkFinding { key := some "K1", severity := some "MAJOR",
                   component := some "p:src/a.py", line := some 10 },
       mkFinding { key := some "K9", severity := some "MAJOR",
                   component := some "p:src/a.py", line := some 10 }] :=
  c2_filter_ordered _ _ _ _ (by decide)

/-! ### C7: unrecognized severities rank 0 and are filtered out -/

/-- Unrecognized severities: rank 0, strictly below `INFO`'s rank 1; for any
valid threshold token the filter still succeeds, and no finding carrying
such a severity ever appears in its output. -/
def UnrecognizedSeverityFiltered (s : String) : Prop :=
  severityRank s = 0 ∧ severityRank "INFO" = 1 ∧
  (∀ thr sev, THRESHOLD_TO_SEVERITY.lookup thr = some sev →
    ∀ raws changed, (filter_issues raws changed thr).isSome) ∧
  (∀ thr raws changed fs, filter_issues raws changed thr = some fs →
    ∀ f ∈ fs, f.severity ≠ s)

/-- C7: a severity string outside {INFO, MINOR, MAJOR, CRITICAL, BLOCKER}
gets rank 0, strictly lower than INFO's rank, so for every valid threshold
token the filter succeeds and excludes raw issues carrying it instead of
failing. -/
theorem c7_unrecognized_severity (s : String)
    (hs : SEVERITY_ORDER.lookup s = none) :
    UnrecognizedSeverityFiltered s := by
  have hrank0 : severityRank s = 0 := by
    rw [severityRank, hs]
    rfl
  refine ⟨hrank0, by decide, ?_, ?_⟩
  · intro thr sev hthr raws changed
    simp [filter_issues, hthr, (threshold_sev_rank hthr).1]
  · intro thr raws changed fs h f hf hsev
    obtain ⟨sev', h1, hall⟩ := filter_mem h
    obtain ⟨hge, -, -⟩ := hall f hf
    have h1le := (threshold_sev_rank h1).2
    rw [hsev, hrank0] at hge
    omega

/-- Witness for C7 at the severity string "WARNING". -/
theorem c7_unrecognized_severity_witness :
    UnrecognizedSeverityFiltered "WARNING" :=
  c7_unrecognized_severity "WARNING" (by decide)

/-! ### C9: line 0 renders as an empty markdown cell -/

/-- The Line-cell contract of the markdown table: line 0 yields an empty
cell (and not the literal "0"); a positive line yields its decimal digits. -/
def MarkdownLineCell (f : Finding) : Prop :=
  (f.line = 0 →
    markdownRow f = markdownRowCell f "" ∧
    markdownRow f ≠ markdownRowCell f "0") ∧
  (0 < f.line → markdownRow f = markdownRowCell f (toString f.line))

/-- C9: in the narrative report, a finding with line number 0 (file-level,
unresolved) is rendered with an empty Line cell rather than the literal "0",
and a finding with a positive line number renders that number. -/
theorem c9_markdown_line_cell (f : Finding) : MarkdownLineCell f := by
  constructor
  · intro h0
    constructor
    · simp only [markdownRow, markdownRowCell, if_pos h0]
    · intro he
      have hlen := congrArg String.length he
      simp only [markdownRow, markdownRowCell, if_pos h0,
        String.length_append] at hlen
      have hz : ("" : String).length = 0 := rfl
      have ho : ("0" : String).length = 1 := rfl
      rw [hz, ho] at hlen
      omega
  · intro hpos
    simp only [markdownRow, markdownRowCell, if_neg (by omega : ¬ f.line = 0)]

/-- A sample finding, parameterized by its line number. -/
def c9SampleAt (n : Nat) : Finding :=
  { key := "K", rule := "r", type := "", severity := "MAJOR", message := "m",
    file := "a.py", line := n, status := "", effort := "", tags := [] }

/-- Witness for C9: one finding at line 0, one at line 5. -/
theorem c9_markdown_line_cell_witness :
    markdownRow (c9SampleAt 0) = markdownRowCell (c9SampleAt 0) "" ∧
    markdownRow (c9SampleAt 5) = markdownRowCell (c9SampleAt 5) "5" :=
  ⟨((c9_markdown_line_cell _).1 rfl).1, (c9_markdown_line_cell _).2 (by decide)⟩

/-! ### C3: pagination requests pages until `page * pageSize >= total` -/

/-- The fetch loop stopped at the first page `p` (from `start` on) whose
response metadata satisfies `total <= page * pageSize`, having requested
exactly the pages `start..p`. -/
def FetchStops (t s : Nat → Int) (start : Nat) (tr0 tr : List Event) : Prop :=
  ∃ p, start ≤ p ∧
    tr = tr0 ++ (List.range' start (p + 1 - start)).map Event.request ∧
    t p ≤ (p : Int) * s p ∧
    ∀ q, start ≤ q → q < p → (q : Int) * s q < t q

/-- A plain raw issue used by the simulated 1200-issue upstream. -/
def sampleIssue : RawIssue := {}

/-- A simulated upstream reporting `total=1200, pageSize=500`: pages 1 and 2
carry 500 issues each, page 3 carries 200. -/
def upstream1200 (p : Nat) : PageResult :=
  .success (List.replicate (if p < 3 then 500 else 200) sampleIssue)
    ⟨some 1200, some 500⟩

set_option maxRecDepth 8000 in
theorem fetch1200 :
    fetchTrace upstream1200 3 1 [] [] =
      some (.ok (List.replicate 1200 sampleIssue),
        [Event.request 1, Event.request 2, Event.request 3]) := by
  rfl

theorem fetch_stops_aux {up : Nat → PageResult} {t s : Nat → Int}
    (hup : ∀ q, ∃ iss, up q = PageResult.success iss ⟨some (t q), some (s q)⟩) :
    ∀ fuel start acc tr0 out tr,
      fetchTrace up fuel start acc tr0 = some (.ok out, tr) →
      FetchStops t s start tr0 tr := by
  intro fuel
  induction fuel with
  | zero =>
    intro start acc tr0 out tr h
    simp [fetchTrace] at h
  | succ n ih =>
    intro start acc tr0 out tr h
    rw [fetchTrace] at h
    obtain ⟨iss, hiss⟩ := hup start
    rw [hiss] at h
    simp only [Option.getD] at h
    split at h
    · next hc =>
      simp only [Option.some.injEq, Prod.mk.injEq] at h
      refine ⟨start, le_refl start, ?_, hc, ?_⟩
      · rw [← h.2]
        simp [List.range']
      · intro q hq1 hq2
        omega
    · next hc =>
      obtain ⟨p, hp1, hp2, hp3, hp4⟩ := ih (start + 1) (acc ++ iss)
        (tr0 ++ [Event.request start]) out tr h
      refine ⟨p, by omega, ?_, hp3, ?_⟩
      · rw [hp2]
        have he : p + 1 - start = (p - start) + 1 := by omega
        have he2 : p + 1 - (start + 1) = p - start := by omega
        rw [he, he2] at *
        rw [List.range'_succ]
        simp
      · intro q hq1 hq2
        rcases Nat.eq_or_lt_of_le hq1 with rfl | hlt
        · exact Int.not_le.mp hc
        · exact hp4 q hlt hq2

/-- C3: the fetch loop terminates exactly when `page * pageSize >= total`,
with both values read from the current response's paging metadata; and on a
simulated upstream reporting `total=1200, pageSize=500` exactly 3 pages are
requested and all 1200 raw issues accumulate before filtering. -/
theorem c3_pagination (up : Nat → PageResult) (t s : Nat → Int)
    (fuel start : Nat) (acc out : List RawIssue) (tr0 tr : List Event)
    (hup : ∀ q, ∃ iss, up q = PageResult.success iss ⟨some (t q), some (s q)⟩)
    (h : fetchTrace up fuel start acc tr0 = some (.ok out, tr)) :
    FetchStops t s start tr0 tr ∧
    (fetchTrace upstream1200 3 1 [] [] =
      some (.ok (List.replicate 1200 sampleIssue),
        [Event.request 1, Event.request 2, Event.request 3]) ∧
      (List.replicate 1200 sampleIssue).length = 1200) :=
  ⟨fetch_stops_aux hup fuel start acc tr0 out tr h, fetch1200,
    List.length_replicate 1200 sampleIssue⟩

set_option maxRecDepth 8000 in
/-- Witness for C3 at the simulated `total=1200, pageSize=500` upstream. -/
theorem c3_pagination_witness :
    FetchStops (fun _ => 1200) (fun _ => 500) 1 []
      [Event.request 1, Event.request 2, Event.request 3] ∧
    (fetchTrace upstream1200 3 1 [] [] =
      some (.ok (List.replicate 1200 sampleIssue),
        [Event.request 1, Event.request 2, Event.request 3]) ∧
      (List.replicate 1200 sampleIssue).length = 1200) :=
  c3_pagination upstream1200 (fun _ => 1200) (fun _ => 500) 3 1 []
    (List.replicate 1200 sampleIssue) []
    [Event.request 1, Event.request 2, Event.request 3]
    (fun q => ⟨List.replicate (if q < 3 then 500 else 200) sampleIssue, rfl⟩)
    (by rfl)

/-! ### C6: invalid thresholds fail before any network request -/

/-- An invalid threshold token makes the run raise before any page request:
the result is the `RuntimeError` branch with an empty event trace, and the
process exit status is 1. -/
def InvalidThresholdStops (up : Nat → PageResult) (fuel : Nat)
    (pk tok : String) (loadRes : Except String (List String)) : Prop :=
  ∃ e, mainTrace up fuel pk tok loadRes = some (.error e, []) ∧
    processExit (.error e) = 1

/-- C6: whenever the lower-cased, trimmed threshold token is absent from the
alias table (e.g. "urgent"), the run fails with exit status 1 and the event
trace is empty, so no fetch request is ever issued before threshold
validation. -/
theorem c6_invalid_threshold (up : Nat → PageResult) (fuel : Nat)
    (pk tok : String) (loadRes : Except String (List String))
    (h : THRESHOLD_TO_SEVERITY.lookup (pyLowerStrip tok) = none) :
    InvalidThresholdStops up fuel pk tok loadRes := by
  refine ⟨"invalid severity threshold '" ++ tok ++ "'", ?_, rfl⟩
  simp [mainTrace, h]

/-- Witness for C6 at the token "urgent". -/
theorem c6_invalid_threshold_witness :
    InvalidThresholdStops (fun _ => PageResult.urlError "down") 1 "pk" "urgent"
      (.ok ["a"]) :=
  c6_invalid_threshold _ _ _ _ _ (by decide)

/-! ### C8: no output artifact is written on a failed run -/

theorem fetchTrace_requests {up : Nat → PageResult} :
    ∀ fuel start acc tr0 r tr,
      fetchTrace up fuel start acc tr0 = some (r, tr) →
      ∀ ev ∈ tr, ev ∈ tr0 ∨ ∃ p, ev = Event.request p := by
  intro fuel
  induction fuel with
  | zero =>
    intro start acc tr0 r tr h
    simp [fetchTrace] at h
  | succ n ih =>
    intro start acc tr0 r tr h
    rw [fetchTrace] at h
    have hbase : ∀ ev ∈ tr0 ++ [Event.request start],
        ev ∈ tr0 ∨ ∃ p, ev = Event.request p := by
      intro ev hev
      rcases List.mem_append.mp hev with hev | hev
      · exact Or.inl hev
      · exact Or.inr ⟨start, List.mem_singleton.mp hev⟩
    split at h
    · simp only [Option.some.injEq, Prod.mk.injEq] at h
      rw [← h.2]
      exact hbase
    · simp only [Option.some.injEq, Prod.mk.injEq] at h
      rw [← h.2]
      exact hbase
    · dsimp only at h
      split at h
      · simp only [Option.some.injEq, Prod.mk.injEq] at h
        rw [← h.2]
        exact hbase
      · intro ev hev
        rcases ih _ _ _ _ _ h ev hev with hin | hreq
        · exact hbase ev hin
        · exact Or.inr hreq

/-- A failed run writes nothing: every event in the trace of an error result
is a page request, never an output-file write. -/
def FailureWritesNothing (tr : List Event) : Prop :=
  ∀ ev ∈ tr, (∀ doc, ev ≠ Event.writeJson doc) ∧ (∀ md, ev ≠ Event.writeMd md)

/-- C8: if the run fails (invalid threshold, unreadable changed-file list, or
a fetch error — anything before filtering completes), neither the structured
nor the narrative output artifact is written: the trace of an error result
contains no write event. -/
theorem c8_no_writes_on_failure (up : Nat → PageResult) (fuel : Nat)
    (pk tok : String) (loadRes : Except String (List String))
    (e : String) (tr : List Event)
    (h : mainTrace up fuel pk tok loadRes = some (.error e, tr)) :
    FailureWritesNothing tr := by
  simp only [mainTrace] at h
  split at h
  · simp only [Option.some.injEq, Prod.mk.injEq] at h
    rw [← h.2]
    intro ev hev
    simp at hev
  · split at h
    · next e' =>
      simp only [Option.some.injEq, Prod.mk.injEq] at h
      rw [← h.2]
      intro ev hev
      simp at hev
    · next lines =>
      split at h
      · simp at h
      · next e' tr' heq =>
        simp only [Option.some.injEq, Prod.mk.injEq] at h
        intro ev hev
        rw [← h.2] at hev
        rcases fetchTrace_requests fuel 1 [] [] _ _ heq ev hev with hin | ⟨p, rfl⟩
        · simp at hin
        · exact ⟨fun doc hd => Event.noConfusion hd,
            fun md hm => Event.noConfusion hm⟩
      · next raws tr' heq =>
        simp only [Option.some.injEq, Prod.mk.injEq] at h
        exact absurd h.1 (by simp)

/-- Witness for C8 at a run whose only page request fails at transport level. -/
theorem c8_no_writes_on_failure_witness :
    FailureWritesNothing [Event.request 1] :=
  c8_no_writes_on_failure (fun _ => PageResult.urlError "down") 1 "pk" "high"
    (.ok ["a"]) "down" [Event.request 1] (by rfl)

/-! ### C4: exit codes 0 / 3 / 1 -/

/-- The exit-status contract: a raised error exits 1 and only raised errors
exit 1; a normal return exits with `main`'s value, which is 0 exactly when
the written report has no findings and 3 exactly when it has at least one. -/
def ExitCodeSpec (res : Except String Nat) (tr : List Event) : Prop :=
  (∀ e, res = .error e → processExit res = 1) ∧
  (processExit res = 1 → ∃ e, res = .error e) ∧
  (∀ n, res = .ok n →
    processExit res = n ∧
    ∃ doc md rest, tr = rest ++ [Event.writeJson doc, Event.writeMd md] ∧
      ((n = 0 ∧ doc.findings = []) ∨ (n = 3 ∧ doc.findings ≠ [])))

theorem mainTrace_cases {up : Nat → PageResult} {fuel : Nat}
    {pk tok : String} {loadRes : Except String (List String)}
    {res : Except String Nat} {tr : List Event}
    (h : mainTrace up fuel pk tok loadRes = some (res, tr)) :
    (∃ e, res = .error e) ∨
    (∃ findings doc md rest,
      res = .ok (if findings.isEmpty then 0 else 3) ∧
      doc.findings = findings ∧
      tr = rest ++ [Event.writeJson doc, Event.writeMd md]) := by
  simp only [mainTrace] at h
  split at h
  · simp only [Option.some.injEq, Prod.mk.injEq] at h
    exact Or.inl ⟨_, h.1.symm⟩
  · split at h
    · simp only [Option.some.injEq, Prod.mk.injEq] at h
      exact Or.inl ⟨_, h.1.symm⟩
    · next lines =>
      split at h
      · simp at h
      · simp only [Option.some.injEq, Prod.mk.injEq] at h
        exact Or.inl ⟨_, h.1.symm⟩
      · next raws tr' heq =>
        simp only [Option.some.injEq, Prod.mk.injEq] at h
        refine Or.inr ⟨(filter_issues raws (load_changed_files lines)
          (pyLowerStrip tok)).getD [],
          buildOutput pk (pyLowerStrip tok)
            (load_changed_files lines).length
            ((filter_issues raws (load_changed_files lines)
              (pyLowerStrip tok)).getD []),
          write_markdown_text pk (pyLowerStrip tok)
            (load_changed_files lines).length
            ((filter_issues raws (load_changed_files lines)
              (pyLowerStrip tok)).getD []),
          tr', h.1.symm, rfl, h.2.symm⟩

/-- C4: the process exit status is 0 when the pipeline succeeds with zero
findings, 3 when it succeeds with one or more findings, and 1 exactly on an
operational failure (raised error); failures are never folded into the
findings-based codes 0 and 3. -/
theorem c4_exit_codes (up : Nat → PageResult) (fuel : Nat)
    (pk tok : String) (loadRes : Except String (List String))
    (res : Except String Nat) (tr : List Event)
    (h : mainTrace up fuel pk tok loadRes = some (res, tr)) :
    ExitCodeSpec res tr := by
  refine ⟨?_, ?_, ?_⟩
  · intro e he
    rw [he]
    rfl
  · intro hone
    rcases mainTrace_cases h with ⟨e, he⟩ | ⟨findings, doc, md, rest, hres, _, _⟩
    · exact ⟨e, he⟩
    · rw [hres] at hone
      rw [processExit] at hone
      split at hone <;> omega
  · intro n hn
    rcases mainTrace_cases h with ⟨e, he⟩ | ⟨findings, doc, md, rest, hres, hdoc, htr⟩
    · rw [he] at hn
      cases hn
    · rw [hres] at hn
      injection hn with hn
      subst hn
      rw [hres]
      refine ⟨rfl, doc, md, rest, htr, ?_⟩
      rcases Bool.eq_false_or_eq_true findings.isEmpty with hemp | hemp
      · rw [if_pos hemp]
        refine Or.inl ⟨rfl, ?_⟩
        rw [hdoc]
        exact List.isEmpty_iff.mp hemp
      · rw [if_neg (by rw [hemp]; exact Bool.false_ne_true)]
        refine Or.inr ⟨rfl, ?_⟩
        rw [hdoc]
        intro hcon
        rw [hcon] at hemp
        simp at hemp

/-- A sample raw issue for the concrete gate-tripped run. -/
def c4Issue : RawIssue :=
  { key := some "K", severity := some "MAJOR", component := some "p:a.py",
    line := some 3 }

/-- Witness for C4 at a run producing one finding (exit 3). -/
theorem c4_exit_codes_witness :
    ExitCodeSpec (.ok 3)
      [Event.request 1,
       Event.writeJson (buildOutput "pk" "medium" 1 [mkFinding c4Issue]),
       Event.writeMd (write_markdown_text "pk" "medium" 1 [mkFinding c4Issue])] :=
  c4_exit_codes (fun _ => .success [c4Issue] ⟨some 1, some 500⟩) 1 "pk"
    "medium" (.ok ["a.py"]) (.ok 3) _ (by rfl)

/-! ### C10: the changed-file count is the number of distinct normalized paths -/

/-- The normalized forms of the nonblank lines of the changed-file list. -/
def changedNormalized (lines : List String) : List String :=
  lines.filterMap (fun l =>
    let l' := pyStrip l
    if l' = "" then none else some (normalize_path l'))

theorem changedNormalized_cons (l : String) (ls : List String) :
    changedNormalized (l :: ls) =
      if pyStrip l = "" then changedNormalized ls
      else normalize_path (pyStrip l) :: changedNormalized ls := by
  by_cases hb : pyStrip l = ""
  · simp [changedNormalized, List.filterMap_cons, hb]
  · simp [changedNormalized, List.filterMap_cons, hb]

theorem load_foldl (lines : List String) :
    ∀ s, List.foldl loadStep s lines = (changedNormalized lines).foldl setAdd s := by
  induction lines with
  | nil =>
    intro s
    rfl
  | cons l ls ih =>
    intro s
    rw [List.foldl_cons, changedNormalized_cons]
    by_cases hb : pyStrip l = ""
    · rw [if_pos hb]
      have hstep : loadStep s l = s := by
        simp [loadStep, hb]
      rw [hstep]
      exact ih s
    · rw [if_neg hb, List.foldl_cons]
      have hstep : loadStep s l = setAdd s (normalize_path (pyStrip l)) := by
        simp [loadStep, hb]
      rw [hstep]
      exact ih _

theorem foldl_setAdd_nodup (l : List String) :
    ∀ s : List String, s.Nodup →
      (l.foldl setAdd s).Nodup ∧
      (l.foldl setAdd s).toFinset = s.toFinset ∪ l.toFinset := by
  induction l with
  | nil =>
    intro s hs
    exact ⟨hs, by simp⟩
  | cons x xs ih =>
    intro s hs
    rw [List.foldl_cons]
    by_cases hx : x ∈ s
    · have hset : setAdd s x = s := by rw [setAdd, if_pos hx]
      rw [hset]
      obtain ⟨h1, h2⟩ := ih s hs
      refine ⟨h1, ?_⟩
      rw [h2, List.toFinset_cons]
      ext a
      simp only [Finset.mem_union, List.mem_toFinset, Finset.mem_insert]
      constructor
      · rintro (ha | ha)
        · exact Or.inl ha
        · exact Or.inr (Or.inr ha)
      · rintro (ha | rfl | ha)
        · exact Or.inl ha
        · exact Or.inl hx
        · exact Or.inr ha
    · have hset : setAdd s x = s ++ [x] := by rw [setAdd, if_neg hx]
      rw [hset]
      have hnodup : (s ++ [x]).Nodup := by
        rw [List.nodup_append]
        exact ⟨hs, List.nodup_singleton x,
          fun a ha hax => hx ((List.mem_singleton.mp hax) ▸ ha)⟩
      obtain ⟨h1, h2⟩ := ih (s ++ [x]) hnodup
      refine ⟨h1, ?_⟩
      rw [h2, List.toFinset_append, List.toFinset_cons]
      ext a
      simp only [Finset.mem_union, List.mem_toFinset, Finset.mem_insert,
        List.mem_singleton, List.mem_cons]
      tauto

theorem load_changed_files_length (lines : List String) :
    (load_changed_files lines).length = (changedNormalized lines).toFinset.card := by
  rw [load_changed_files, load_foldl]
  obtain ⟨h1, h2⟩ := foldl_setAdd_nodup (changedNormalized lines) [] List.nodup_nil
  rw [← List.toFinset_card_of_nodup h1, h2]
  simp

/-- The changed-file count reported in both artifacts equals the number of
distinct normalized paths among the nonblank lines of the changed-file list. -/
def ChangedCountDistinct (pk tok : String) (lines : List String)
    (tr : List Event) : Prop :=
  (∀ doc, Event.writeJson doc ∈ tr →
    doc.summary.changed_files = (changedNormalized lines).toFinset.card) ∧
  (∀ md, Event.writeMd md ∈ tr →
    ∃ fs, md = write_markdown_text pk (pyLowerStrip tok)
      ((changedNormalized lines).toFinset.card) fs)

/-- C10: the `changed_files` count of the structured summary, and the
changed-file count in the narrative header, both equal the number of distinct
normalized paths in the changed-file list — duplicate lines, and lines that
normalize to equal paths, are counted once. -/
theorem c10_changed_count (up : Nat → PageResult) (fuel : Nat)
    (pk tok : String) (lines : List String)
    (res : Except String Nat) (tr : List Event)
    (h : mainTrace up fuel pk tok (.ok lines) = some (res, tr)) :
    ChangedCountDistinct pk tok lines tr := by
  simp only [mainTrace] at h
  split at h
  · simp only [Option.some.injEq, Prod.mk.injEq] at h
    rw [← h.2]
    exact ⟨fun doc hd => absurd hd (List.not_mem_nil _),
      fun md hm => absurd hm (List.not_mem_nil _)⟩
  · split at h
    · simp at h
    · next e' tr' heq =>
      simp only [Option.some.injEq, Prod.mk.injEq] at h
      constructor
      · intro doc hd
        rw [← h.2] at hd
        rcases fetchTrace_requests fuel 1 [] [] _ _ heq _ hd with hin | ⟨p, hp⟩
        · simp at hin
        · exact absurd hp (fun hc => Event.noConfusion hc)
      · intro md hm
        rw [← h.2] at hm
        rcases fetchTrace_requests fuel 1 [] [] _ _ heq _ hm with hin | ⟨p, hp⟩
        · simp at hin
        · exact absurd hp (fun hc => Event.noConfusion hc)
    · next raws tr' heq =>
      simp only [Option.some.injEq, Prod.mk.injEq] at h
      constructor
      · intro doc hd
        rw [← h.2] at hd
        rcases List.mem_append.mp hd with hd | hd
        · rcases fetchTrace_requests fuel 1 [] [] _ _ heq _ hd with hin | ⟨p, hp⟩
          · simp at hin
          · exact absurd hp (fun hc => Event.noConfusion hc)
        · rcases List.mem_cons.mp hd with hd | hd
          · have hdoc := Event.writeJson.inj hd
            rw [hdoc]
            rw [buildOutput]
            exact load_changed_files_length lines
          · rcases List.mem_singleton.mp hd with hd
            exact Event.noConfusion hd
      · intro md hm
        rw [← h.2] at hm
        rcases List.mem_append.mp hm with hm | hm
        · rcases fetchTrace_requests fuel 1 [] [] _ _ heq _ hm with hin | ⟨p, hp⟩
          · simp at hin
          · exact absurd hp (fun hc => Event.noConfusion hc)
        · rcases List.mem_cons.mp hm with hm | hm
          · exact Event.noConfusion hm
          · rcases List.mem_singleton.mp hm with hm
            have hmd := Event.writeMd.inj hm
            refine ⟨(filter_issues raws (load_changed_files lines)
              (pyLowerStrip tok)).getD [], ?_⟩
            rw [hmd, load_changed_files_length]

/-- Witness for C10: two lines normalizing to the same path plus one more
give a changed-file count of 2. -/
theorem c10_changed_count_witness :
    ChangedCountDistinct "pk" "High " ["a", "./a", "b"]
      [Event.request 1,
       Event.writeJson (buildOutput "pk" "high" 2 []),
       Event.writeMd (write_markdown_text "pk" "high" 2 [])] :=
  c10_changed_count (fun _ => .success [] ⟨some 0, some 500⟩) 1 "pk" "High "
    ["a", "./a", "b"] (.ok 0) _ (by rfl)

/-! ### C5: `normalize_path` idempotence — split/join infrastructure -/

theorem splitSlashAux_cons_slash (rest : List Char) :
    splitSlashAux ('/' :: rest) =
      ([], (splitSlashAux rest).1 :: (splitSlashAux rest).2) := by
  rw [splitSlashAux]
  simp

theorem splitSlashAux_cons_ne (c : Char) (rest : List Char) (hc : c ≠ '/') :
    splitSlashAux (c :: rest) =
      (c :: (splitSlashAux rest).1, (splitSlashAux rest).2) := by
  rw [splitSlashAux]
  simp [hc]

/-- What follows the first component in `'/'.join`: nothing, or a slash and
the joined remainder. -/
def joinRest : List (List Char) → List Char
  | [] => []
  | c :: cs => '/' :: joinSlash (c :: cs)

theorem joinSlash_cons (c : List Char) (cs : List (List Char)) :
    joinSlash (c :: cs) = c ++ joinRest cs := by
  cases cs with
  | nil => simp [joinSlash, joinRest]
  | cons c' cs' => rfl

theorem splitSlashAux_chars : ∀ p : List Char,
    (∀ ch ∈ (splitSlashAux p).1, ch ∈ p ∧ ch ≠ '/') ∧
    (∀ comp ∈ (splitSlashAux p).2, ∀ ch ∈ comp, ch ∈ p ∧ ch ≠ '/') := by
  intro p
  induction p with
  | nil =>
    constructor
    · intro ch hch
      simp [splitSlashAux] at hch
    · intro comp hcomp
      simp [splitSlashAux] at hcomp
  | cons c rest ih =>
    obtain ⟨ih1, ih2⟩ := ih
    by_cases hc : c = '/'
    · subst hc
      rw [splitSlashAux_cons_slash]
      constructor
      · intro ch hch
        simp at hch
      · intro comp hcomp ch hch
        rcases List.mem_cons.mp hcomp with rfl | hcomp
        · exact ⟨List.mem_cons_of_mem _ (ih1 ch hch).1, (ih1 ch hch).2⟩
        · exact ⟨List.mem_cons_of_mem _ (ih2 comp hcomp ch hch).1,
            (ih2 comp hcomp ch hch).2⟩
    · rw [splitSlashAux_cons_ne c rest hc]
      constructor
      · intro ch hch
        rcases List.mem_cons.mp hch with rfl | hch
        · exact ⟨List.mem_cons_self _ _, hc⟩
        · exact ⟨List.mem_cons_of_mem _ (ih1 ch hch).1, (ih1 ch hch).2⟩
      · intro comp hcomp ch hch
        exact ⟨List.mem_cons_of_mem _ (ih2 comp hcomp ch hch).1,
          (ih2 comp hcomp ch hch).2⟩

theorem splitSlash_chars {p : List Char} {comp : List Char}
    (hcomp : comp ∈ splitSlash p) : ∀ ch ∈ comp, ch ∈ p ∧ ch ≠ '/' := by
  rw [splitSlash] at hcomp
  rcases List.mem_cons.mp hcomp with rfl | hcomp
  · exact (splitSlashAux_chars p).1
  · exact (splitSlashAux_chars p).2 comp hcomp

theorem splitSlashAux_append (c : List Char) (xs : List Char)
    (h : ∀ ch ∈ c, ch ≠ '/') :
    splitSlashAux (c ++ xs) =
      (c ++ (splitSlashAux xs).1, (splitSlashAux xs).2) := by
  induction c with
  | nil => simp
  | cons ch cs ih =>
    have hch : ch ≠ '/' := h ch (List.mem_cons_self _ _)
    rw [List.cons_append, splitSlashAux_cons_ne ch (cs ++ xs) hch,
      ih (fun a ha => h a (List.mem_cons_of_mem _ ha))]
    simp

theorem splitSlash_cons_slash (xs : List Char) :
    splitSlash ('/' :: xs) = [] :: splitSlash xs := by
  rw [splitSlash, splitSlashAux_cons_slash]
  rfl

theorem splitSlash_join : ∀ cs (c : List Char),
    (∀ comp ∈ c :: cs, ∀ ch ∈ comp, ch ≠ '/') →
    splitSlash (joinSlash (c :: cs)) = c :: cs := by
  intro cs
  induction cs with
  | nil =>
    intro c h
    have hc : ∀ ch ∈ c, ch ≠ '/' := h c (List.mem_cons_self _ _)
    have h2 := splitSlashAux_append c [] hc
    simp only [splitSlashAux, List.append_nil] at h2
    rw [show joinSlash [c] = c from rfl, splitSlash, h2]
  | cons c' cs' ih =>
    intro c h
    have hc : ∀ ch ∈ c, ch ≠ '/' := h c (List.mem_cons_self _ _)
    have hjoin : joinSlash (c :: c' :: cs') = c ++ '/' :: joinSlash (c' :: cs') :=
      rfl
    rw [hjoin, splitSlash, splitSlashAux_append c _ hc,
      splitSlashAux_cons_slash]
    have hrest := ih c' (fun comp hcomp => h comp (List.mem_cons_of_mem _ hcomp))
    rw [splitSlash] at hrest
    simp only [List.append_nil]
    rw [hrest]

theorem splitSlash_replicate_slash : ∀ (n : Nat) (xs : List Char),
    splitSlash (List.replicate n '/' ++ xs) =
      List.replicate n [] ++ splitSlash xs := by
  intro n
  induction n with
  | zero => intro xs; simp
  | succ m ih =>
    intro xs
    rw [List.replicate_succ, List.cons_append, splitSlash_cons_slash, ih]
    rfl

theorem joinSlash_chars : ∀ (cs : List (List Char)) (ch : Char),
    ch ∈ joinSlash cs → ch = '/' ∨ ∃ comp ∈ cs, ch ∈ comp := by
  intro cs
  induction cs with
  | nil =>
    intro ch hch
    simp [joinSlash] at hch
  | cons c cs' ih =>
    intro ch hch
    rw [joinSlash_cons] at hch
    rcases List.mem_append.mp hch with hch | hch
    · exact Or.inr ⟨c, List.mem_cons_self _ _, hch⟩
    · cases cs' with
      | nil => simp [joinRest] at hch
      | cons c'' cs'' =>
        rw [joinRest] at hch
        rcases List.mem_cons.mp hch with rfl | hch
        · exact Or.inl rfl
        · rcases ih ch hch with h | ⟨comp, hcomp, hc⟩
          · exact Or.inl h
          · exact Or.inr ⟨comp, List.mem_cons_of_mem _ hcomp, hc⟩

/-! ### C5: the component-loop invariant -/

/-- A component `posixpath.normpath` may keep: nonempty, not `.`, slash-free. -/
def GoodComp (comp : List Char) : Prop :=
  comp ≠ [] ∧ comp ≠ ['.'] ∧ ∀ ch ∈ comp, ch ≠ '/'

/-- Invariant of the component loop: every kept component is good, and the
`..` components form a prefix, absent altogether under initial slashes. -/
def NormAcc (slashes : Nat) (acc : List (List Char)) : Prop :=
  (∀ comp ∈ acc, GoodComp comp) ∧
  ∃ k rest, acc = List.replicate k dotdot ++ rest ∧ dotdot ∉ rest ∧
    (slashes ≠ 0 → k = 0)

theorem normAcc_nil (slashes : Nat) : NormAcc slashes [] :=
  ⟨fun _ hcomp => absurd hcomp (List.not_mem_nil _),
    0, [], rfl, List.not_mem_nil _, fun _ => rfl⟩

theorem normStep_inv {slashes : Nat} {acc : List (List Char)}
    {comp : List Char} (hacc : NormAcc slashes acc)
    (hcomp : ∀ ch ∈ comp, ch ≠ '/') :
    NormAcc slashes (normStep slashes acc comp) := by
  obtain ⟨hgood, k, rest, hsplit, hdd, hk⟩ := hacc
  by_cases h1 : comp = [] ∨ comp = ['.']
  · rw [normStep, if_pos h1]
    exact ⟨hgood, k, rest, hsplit, hdd, hk⟩
  · by_cases h2 : comp ≠ dotdot ∨ (slashes = 0 ∧ acc = []) ∨
        (acc ≠ [] ∧ acc.getLast? = some dotdot)
    · rw [normStep, if_neg h1, if_pos h2]
      push_neg at h1
      have hgood' : GoodComp comp := ⟨h1.1, h1.2, hcomp⟩
      refine ⟨?_, ?_⟩
      · intro c hc
        rcases List.mem_append.mp hc with hc | hc
        · exact hgood c hc
        · rw [List.mem_singleton.mp hc]
          exact hgood'
      · by_cases hcdd : comp = dotdot
        · subst hcdd
          rcases h2 with h2 | ⟨hs0, hacc0⟩ | ⟨hne, hlast⟩
          · exact absurd rfl h2
          · rw [hacc0]
            refine ⟨1, [], by simp, List.not_mem_nil _, ?_⟩
            intro hs
            exact absurd hs0 (by omega)
          · have hrest : rest = [] := by
              by_contra hrne
              have hgl := List.getLast?_append_of_ne_nil
                (List.replicate k dotdot) hrne
              rw [← hsplit] at hgl
              rw [hgl] at hlast
              exact hdd (List.mem_of_mem_getLast? hlast)
            subst hrest
            rw [List.append_nil] at hsplit
            have hkpos : k ≠ 0 := by
              intro hk0
              rw [hk0] at hsplit
              exact hne (by simpa using hsplit)
            refine ⟨k + 1, [], ?_, List.not_mem_nil _, ?_⟩
            · rw [hsplit, List.append_nil, List.replicate_succ']
            · intro hs
              exact absurd (hk hs) hkpos
        · refine ⟨k, rest ++ [comp], by rw [hsplit, List.append_assoc], ?_, hk⟩
          intro hmem
          rcases List.mem_append.mp hmem with hmem | hmem
          · exact hdd hmem
          · exact hcdd (List.mem_singleton.mp hmem).symm
    · by_cases h3 : acc ≠ []
      · rw [normStep, if_neg h1, if_neg h2, if_pos h3]
        refine ⟨?_, ?_⟩
        · intro c hc
          exact hgood c (List.dropLast_sublist acc |>.subset hc)
        · rcases List.eq_nil_or_concat rest with rfl | ⟨rest', r, rfl⟩
          · rw [List.append_nil] at hsplit
            cases k with
            | zero =>
              rw [hsplit] at h3
              simp at h3
            | succ m =>
              refine ⟨m, [], ?_, List.not_mem_nil _, ?_⟩
              · rw [hsplit, List.replicate_succ', List.dropLast_concat,
                  List.append_nil]
              · intro hs
                exact absurd (hk hs) (by omega)
          · rw [List.concat_eq_append] at hsplit hdd
            refine ⟨k, rest', ?_, ?_, hk⟩
            · rw [hsplit, ← List.append_assoc, List.dropLast_concat]
            · intro hmem
              exact hdd (List.mem_append.mpr (Or.inl hmem))
      · rw [normStep, if_neg h1, if_neg h2, if_neg h3]
        exact ⟨hgood, k, rest, hsplit, hdd, hk⟩

theorem foldl_normStep_inv {slashes : Nat} : ∀ (comps : List (List Char)) acc,
    NormAcc slashes acc →
    (∀ comp ∈ comps, ∀ ch ∈ comp, ch ≠ '/') →
    NormAcc slashes (comps.foldl (normStep slashes) acc) := by
  intro comps
  induction comps with
  | nil =>
    intro acc hacc _
    exact hacc
  | cons comp comps' ih =>
    intro acc hacc hcomps
    rw [List.foldl_cons]
    exact ih _ (normStep_inv hacc (hcomps comp (List.mem_cons_self _ _)))
      (fun c hc => hcomps c (List.mem_cons_of_mem _ hc))

theorem mem_normStep {slashes : Nat} {acc : List (List Char)}
    {comp c : List Char} (hc : c ∈ normStep slashes acc comp) :
    c ∈ acc ∨ c = comp := by
  rw [normStep] at hc
  by_cases h1 : comp = [] ∨ comp = ['.']
  · rw [if_pos h1] at hc
    exact Or.inl hc
  · rw [if_neg h1] at hc
    by_cases h2 : comp ≠ dotdot ∨ (slashes = 0 ∧ acc = []) ∨
        (acc ≠ [] ∧ acc.getLast? = some dotdot)
    · rw [if_pos h2] at hc
      rcases List.mem_append.mp hc with hc | hc
      · exact Or.inl hc
      · exact Or.inr (List.mem_singleton.mp hc)
    · rw [if_neg h2] at hc
      by_cases h3 : acc ≠ []
      · rw [if_pos h3] at hc
        exact Or.inl (List.dropLast_sublist acc |>.subset hc)
      · rw [if_neg h3] at hc
        exact Or.inl hc

theorem foldl_normStep_subset {slashes : Nat} : ∀ (comps : List (List Char)) acc,
    ∀ c ∈ comps.foldl (normStep slashes) acc, c ∈ acc ∨ c ∈ comps := by
  intro comps
  induction comps with
  | nil =>
    intro acc c hc
    exact Or.inl hc
  | cons comp comps' ih =>
    intro acc c hc
    rw [List.foldl_cons] at hc
    rcases ih _ c hc with hc | hc
    · rcases mem_normStep hc with hc | rfl
      · exact Or.inl hc
      · exact Or.inr (List.mem_cons_self _ _)
    · exact Or.inr (List.mem_cons_of_mem _ hc)

/-! ### C5: re-processing normalized components is the identity -/

theorem foldl_normStep_dd (s' : Nat) : ∀ (k j : Nat),
    (j = 0 → k ≠ 0 → s' = 0) →
    (List.replicate k dotdot).foldl (normStep s') (List.replicate j dotdot) =
      List.replicate (j + k) dotdot := by
  intro k
  induction k with
  | zero =>
    intro j _
    simp
  | succ m ih =>
    intro j h
    rw [List.replicate_succ, List.foldl_cons]
    have hstep : normStep s' (List.replicate j dotdot) dotdot =
        List.replicate (j + 1) dotdot := by
      rw [normStep, if_neg (by rw [dotdot]; simp), if_pos, List.replicate_succ']
      cases j with
      | zero =>
        exact Or.inr (Or.inl ⟨h rfl (by omega), rfl⟩)
      | succ j' =>
        refine Or.inr (Or.inr ⟨by simp [List.replicate_succ], ?_⟩)
        rw [List.replicate_succ', List.getLast?_concat]
    rw [hstep, ih (j + 1) (fun hj => absurd hj (by omega))]
    congr 1
    omega

theorem foldl_normStep_keep (s' : Nat) : ∀ (rest : List (List Char)) acc,
    (∀ comp ∈ rest, GoodComp comp ∧ comp ≠ dotdot) →
    rest.foldl (normStep s') acc = acc ++ rest := by
  intro rest
  induction rest with
  | nil =>
    intro acc _
    simp
  | cons comp rest' ih =>
    intro acc h
    obtain ⟨⟨hne, hnd, _⟩, hndd⟩ := h comp (List.mem_cons_self _ _)
    rw [List.foldl_cons]
    have hstep : normStep s' acc comp = acc ++ [comp] := by
      rw [normStep, if_neg (by rw [not_or]; exact ⟨hne, hnd⟩), if_pos (Or.inl hndd)]
    rw [hstep, ih _ (fun c hc => h c (List.mem_cons_of_mem _ hc)),
      List.append_assoc]
    rfl

theorem foldl_normStep_skip_empty (s' : Nat) : ∀ (n : Nat) (comps : List (List Char)) acc,
    (List.replicate n ([] : List Char) ++ comps).foldl (normStep s') acc =
      comps.foldl (normStep s') acc := by
  intro n
  induction n with
  | zero =>
    intro comps acc
    simp
  | succ m ih =>
    intro comps acc
    rw [List.replicate_succ, List.cons_append, List.foldl_cons]
    have hstep : normStep s' acc [] = acc := by
      rw [normStep, if_pos (Or.inl rfl)]
    rw [hstep, ih]

theorem foldl_normStep_id (s' : Nat) (k : Nat) (rest : List (List Char))
    (hrest : ∀ comp ∈ rest, GoodComp comp ∧ comp ≠ dotdot)
    (hk : k ≠ 0 → s' = 0) :
    (List.replicate k dotdot ++ rest).foldl (normStep s') [] =
      List.replicate k dotdot ++ rest := by
  rw [List.foldl_append]
  have h1 : (List.replicate k dotdot).foldl (normStep s')
      (List.replicate 0 dotdot) = List.replicate (0 + k) dotdot :=
    foldl_normStep_dd s' k 0 (fun _ => hk)
  rw [List.replicate] at h1
  rw [h1.trans (by rw [Nat.zero_add]), foldl_normStep_keep s' rest _ hrest]

/-! ### C5: shape of a `normpath` output and the fixed-point property -/

theorem initialSlashes_le (p : List Char) : initialSlashes p ≤ 2 := by
  rw [initialSlashes]
  split_ifs <;> omega

theorem normpathChars_eq (p : List Char) (hp : p ≠ []) :
    normpathChars p =
      if List.replicate (initialSlashes p) '/' ++
          joinSlash ((splitSlash p).foldl (normStep (initialSlashes p)) []) = []
      then ['.']
      else List.replicate (initialSlashes p) '/' ++
        joinSlash ((splitSlash p).foldl (normStep (initialSlashes p)) []) := by
  rw [normpathChars, if_neg hp]

/-- The shape of every `posixpath.normpath` output: the dot, or the preserved
initial slashes followed by the join of good components, `..`s first. -/
def NormOut (q : List Char) : Prop :=
  q = ['.'] ∨
  ∃ s nc, s ≤ 2 ∧ (∀ comp ∈ nc, GoodComp comp) ∧
    (∃ k rest, nc = List.replicate k dotdot ++ rest ∧ dotdot ∉ rest ∧
      (s ≠ 0 → k = 0)) ∧
    (s = 0 → nc ≠ []) ∧
    q = List.replicate s '/' ++ joinSlash nc

theorem normpath_produces (p : List Char) : NormOut (normpathChars p) := by
  by_cases hp : p = []
  · subst hp
    exact Or.inl rfl
  · rw [normpathChars_eq p hp]
    have hinv : NormAcc (initialSlashes p)
        ((splitSlash p).foldl (normStep (initialSlashes p)) []) :=
      foldl_normStep_inv _ _ (normAcc_nil _)
        (fun comp hcomp ch hch => (splitSlash_chars hcomp ch hch).2)
    obtain ⟨hgood, k, rest, hsplit, hdd, hk⟩ := hinv
    by_cases hout : List.replicate (initialSlashes p) '/' ++
        joinSlash ((splitSlash p).foldl (normStep (initialSlashes p)) []) = []
    · rw [if_pos hout]
      exact Or.inl rfl
    · rw [if_neg hout]
      refine Or.inr ⟨initialSlashes p, _, initialSlashes_le p, hgood,
        ⟨k, rest, hsplit, hdd, hk⟩, ?_, rfl⟩
      intro hs0 hnc0
      apply hout
      rw [hnc0, hs0]
      rfl

theorem normpath_fixes {q : List Char} (h : NormOut q) : normpathChars q = q := by
  rcases h with rfl | ⟨s, nc, hs2, hgood, ⟨k, rest, hsplit, hdd, hk⟩, hs0, rfl⟩
  · decide
  · cases nc with
    | nil =>
      have hsne : s ≠ 0 := fun h0 => (hs0 h0) rfl
      interval_cases s
      · exact absurd rfl hsne
      · decide
      · decide
    | cons c cs =>
      have hgc : GoodComp c := hgood c (List.mem_cons_self _ _)
      obtain ⟨ch, c', rfl⟩ := List.exists_cons_of_ne_nil hgc.1
      have hch : ch ≠ '/' := hgc.2.2 ch (List.mem_cons_self _ _)
      have hq : joinSlash ((ch :: c') :: cs) = ch :: (c' ++ joinRest cs) := by
        rw [joinSlash_cons]
        rfl
      rw [hq]
      have hqne : List.replicate s '/' ++ ch :: (c' ++ joinRest cs) ≠ [] := by
        intro hqq
        have hlen := congrArg List.length hqq
        simp at hlen
      rw [normpathChars_eq _ hqne]
      have hslash : initialSlashes
          (List.replicate s '/' ++ ch :: (c' ++ joinRest cs)) = s := by
        interval_cases s
        · rw [initialSlashes]
          rw [List.replicate, List.nil_append]
          rw [if_neg (by simp [hch])]
        · rw [initialSlashes]
          have h1 : List.replicate 1 '/' ++ ch :: (c' ++ joinRest cs) =
              '/' :: ch :: (c' ++ joinRest cs) := rfl
          rw [h1]
          rw [if_pos (by simp)]
          rw [if_neg (by simp [hch])]
        · rw [initialSlashes]
          have h1 : List.replicate 2 '/' ++ ch :: (c' ++ joinRest cs) =
              '/' :: '/' :: ch :: (c' ++ joinRest cs) := rfl
          rw [h1]
          rw [if_pos (by simp)]
          rw [if_pos (by simp [hch])]
      have hsfree : ∀ comp ∈ (ch :: c') :: cs, ∀ a ∈ comp, a ≠ '/' :=
        fun comp hcomp => (hgood comp hcomp).2.2
      have hsplitq : splitSlash
          (List.replicate s '/' ++ ch :: (c' ++ joinRest cs)) =
          List.replicate s [] ++ ((ch :: c') :: cs) := by
        rw [← hq, splitSlash_replicate_slash, splitSlash_join cs _ hsfree]
      have hfold : ((ch :: c') :: cs).foldl (normStep s) [] =
          (ch :: c') :: cs := by
        rw [hsplit]
        refine foldl_normStep_id s k rest ?_ ?_
        · intro comp hcomp
          refine ⟨hgood comp (hsplit ▸ List.mem_append.mpr (Or.inr hcomp)), ?_⟩
          intro hcd
          rw [hcd] at hcomp
          exact hdd hcomp
        · intro hkne
          by_contra hsne
          exact hkne (hk hsne)
      rw [hslash, hsplitq, foldl_normStep_skip_empty, hfold, hq]
      rw [if_neg hqne]

theorem normpathChars_idem (p : List Char) :
    normpathChars (normpathChars p) = normpathChars p :=
  normpath_fixes (normpath_produces p)

/-! ### C5: lifting idempotence to `normalize_path` -/

theorem normalize_path_eq (s : String) :
    normalize_path s =
      ⟨(normpathChars (if (stripChars s.data).take 2 = ['.', '/']
          then (stripChars s.data).drop 2 else stripChars s.data)).map
        (fun c => if c = '\\' then '/' else c)⟩ := rfl

theorem dropWhile_pyIsSpace_id : ∀ (cs : List Char),
    (∀ c ∈ cs, pyIsSpace c = false) → cs.dropWhile pyIsSpace = cs := by
  intro cs h
  cases cs with
  | nil => rfl
  | cons c cs' =>
    simp [List.dropWhile_cons, h c (List.mem_cons_self _ _)]

theorem stripChars_id {cs : List Char} (h : ∀ c ∈ cs, pyIsSpace c = false) :
    stripChars cs = cs := by
  rw [stripChars, dropWhile_pyIsSpace_id cs h,
    dropWhile_pyIsSpace_id _ (fun c hc => h c (List.mem_reverse.mp hc)),
    List.reverse_reverse]

theorem map_backslash_id {q : List Char} (h : ∀ c ∈ q, c ≠ '\\') :
    q.map (fun c => if c = '\\' then '/' else c) = q := by
  induction q with
  | nil => rfl
  | cons c cs ih =>
    rw [List.map_cons, if_neg (h c (List.mem_cons_self _ _)),
      ih (fun a ha => h a (List.mem_cons_of_mem _ ha))]

theorem normpathChars_chars (p : List Char) :
    ∀ ch ∈ normpathChars p, ch ∈ p ∨ ch = '.' ∨ ch = '/' := by
  by_cases hp : p = []
  · subst hp
    intro ch hch
    exact Or.inr (Or.inl (List.mem_singleton.mp hch))
  · rw [normpathChars_eq p hp]
    split
    · intro ch hch
      exact Or.inr (Or.inl (List.mem_singleton.mp hch))
    · intro ch hch
      rcases List.mem_append.mp hch with hch | hch
      · exact Or.inr (Or.inr (List.eq_of_mem_replicate hch))
      · rcases joinSlash_chars _ ch hch with rfl | ⟨comp, hcomp, hc⟩
        · exact Or.inr (Or.inr rfl)
        · rcases foldl_normStep_subset _ _ comp hcomp with hcm | hcm
          · simp at hcm
          · exact Or.inl (splitSlash_chars hcm ch hc).1

theorem normpath_not_dotslash (p : List Char) :
    (normpathChars p).take 2 ≠ ['.', '/'] := by
  rcases normpath_produces p with hq | ⟨s, nc, hs2, hgood, _, hs0, hq⟩
  · rw [hq]
    decide
  · rw [hq]
    cases nc with
    | nil =>
      have hsne : s ≠ 0 := fun h0 => (hs0 h0) rfl
      interval_cases s
      · exact absurd rfl hsne
      · decide
      · decide
    | cons c cs =>
      have hgc : GoodComp c := hgood c (List.mem_cons_self _ _)
      obtain ⟨ch, c', rfl⟩ := List.exists_cons_of_ne_nil hgc.1
      have hj : joinSlash ((ch :: c') :: cs) = ch :: (c' ++ joinRest cs) := by
        rw [joinSlash_cons]
        rfl
      rw [hj]
      cases s with
      | zero =>
        rw [List.replicate, List.nil_append]
        intro hc2
        rw [List.take_succ_cons] at hc2
        injection hc2 with h1 h2
        subst h1
        cases c' with
        | nil => exact hgc.2.1 rfl
        | cons d c'' =>
          rw [List.cons_append, List.take_succ_cons] at h2
          injection h2 with h3 _
          exact hgc.2.2 d (List.mem_cons_of_mem _ (List.mem_cons_self _ _)) h3
      | succ s' =>
        rw [List.replicate_succ, List.cons_append]
        intro hc2
        rw [List.take_succ_cons] at hc2
        injection hc2 with h1 _
        exact absurd h1 (by decide)

/-- Paths containing no backslash and no character of Python's whitespace
class (`pyIsSpace`); on these the stripping and separator-replacement phases
of `normalize_path` are inert. -/
def CleanPath (p : String) : Prop :=
  ∀ c ∈ p.data, c ≠ '\\' ∧ pyIsSpace c = false

theorem normalize_mk_fixes {q : List Char}
    (hclean : ∀ c ∈ q, c ≠ '\\' ∧ pyIsSpace c = false)
    (hfix : normpathChars q = q)
    (hds : q.take 2 ≠ ['.', '/']) :
    normalize_path ⟨q⟩ = ⟨q⟩ := by
  rw [normalize_path_eq]
  have hdata : (String.mk q).data = q := rfl
  rw [hdata, stripChars_id (fun c hc => (hclean c hc).2), if_neg hds, hfix,
    map_backslash_id (fun c hc => (hclean c hc).1)]

theorem normalize_clean {p : String} (hp : CleanPath p) :
    ∃ q : List Char, normalize_path p = ⟨q⟩ ∧
      (∀ c ∈ q, c ≠ '\\' ∧ pyIsSpace c = false) ∧
      normpathChars q = q ∧ q.take 2 ≠ ['.', '/'] := by
  have hsub : ∀ c ∈ (if p.data.take 2 = ['.', '/']
      then p.data.drop 2 else p.data), c ∈ p.data := by
    split
    · exact fun c hc => List.drop_subset _ _ hc
    · exact fun c hc => hc
  have hqchars : ∀ c ∈ normpathChars (if p.data.take 2 = ['.', '/']
      then p.data.drop 2 else p.data), c ≠ '\\' ∧ pyIsSpace c = false := by
    intro c hc
    rcases normpathChars_chars _ c hc with hcp | rfl | rfl
    · exact hp c (hsub c hcp)
    · exact ⟨by decide, by decide⟩
    · exact ⟨by decide, by decide⟩
  refine ⟨normpathChars (if p.data.take 2 = ['.', '/']
      then p.data.drop 2 else p.data), ?_, hqchars, normpathChars_idem _,
      normpath_not_dotslash _⟩
  rw [normalize_path_eq, stripChars_id (fun c hc => (hp c hc).2),
    map_backslash_id (fun c hc => (hqchars c hc).1)]

/-! ### C5: the claim, its counterexample, and the amended statement -/

/-- Counterexample to C5 as stated: `normalize_path` is not idempotent on all
path strings. A backslash component survives lexical resolution and is only
then turned into a separator (`".\\a"` becomes `"./a"`, which normalizes
further to `"a"`), and a trailing space inside the last component survives
`normpath` but is stripped by the second pass (`"a /"` becomes `"a "`, then
`"a"`). -/
theorem c5_normalize_counterexample :
    normalize_path (normalize_path ".\\a") ≠ normalize_path ".\\a" ∧
    normalize_path (normalize_path "a /") ≠ normalize_path "a /" ∧
    normalize_path ".\\a" = "./a" ∧
    normalize_path (normalize_path ".\\a") = "a" ∧
    normalize_path "a /" = "a " ∧
    normalize_path (normalize_path "a /") = "a" := by
  refine ⟨?_, ?_, ?_, ?_, ?_, ?_⟩ <;> decide

/-- C5, amended: `normalize_path` is idempotent on every path containing no
backslash and no character of Python's whitespace class (the counterexamples
force exactly these two exclusions), and `normalize_path "./a/b" =
normalize_path "a/b" = "a/b"` holds as stated. -/
theorem c5_normalize_idempotent :
    (∀ p : String, CleanPath p →
      normalize_path (normalize_path p) = normalize_path p) ∧
    normalize_path "./a/b" = "a/b" ∧ normalize_path "a/b" = "a/b" := by
  refine ⟨?_, by decide, by decide⟩
  intro p hp
  obtain ⟨q, h1, h2, h3, h4⟩ := normalize_clean hp
  rw [h1, normalize_mk_fixes h2 h3 h4]

/-- Witness for the amended C5 at a path with a `..` segment. -/
theorem c5_normalize_idempotent_witness :
    normalize_path (normalize_path "src/x/../y.py") =
      normalize_path "src/x/../y.py" :=
  c5_normalize_idempotent.1 "src/x/../y.py"
    (by
      show ∀ c ∈ ("src/x/../y.py" : String).data,
        c ≠ '\\' ∧ pyIsSpace c = false
      decide)

end Clai
